import Mathlib

/-!
Verification of the segment-reconciliation and VAD-alignment core of the
`python-practice` repository.  Each Python function named in the claims is
shallowly embedded as an executable Lean definition over lists; Python
floats are modelled as `ℚ`, strings as `List Char`, `None`/exceptions as
`Option`.
-/

/-! ### Edit-distance scorer (`subtitle-cer/cer_compare.py`) -/

/-- Distance component of `levenshtein_ops` (cer_compare.py, lines 117-174):
the value `dp[n][m]` of the classic DP with unit substitution, deletion and
insertion costs.  The DP table is embedded as structural recursion on the two
sequences (the table entry for a pair of prefixes becomes the recursive call
on those prefixes); the backtrace counts `S`, `D`, `I` do not affect this
component. -/
def levenshtein_distance : List Char → List Char → ℕ
  | [], hyp => hyp.length
  | r :: ref, [] => (r :: ref).length
  | r :: ref, h :: hyp =>
      let cost : ℕ := if r = h then 0 else 1
      min (levenshtein_distance ref hyp + cost)
        (min (levenshtein_distance ref (h :: hyp) + 1)
          (levenshtein_distance (r :: ref) hyp + 1))
termination_by ref hyp => ref.length + hyp.length

theorem levenshtein_distance_nil_right (a : List Char) :
    levenshtein_distance a [] = a.length := by
  cases a <;> simp [levenshtein_distance]

theorem levenshtein_distance_nil_left (b : List Char) :
    levenshtein_distance [] b = b.length := by
  simp [levenshtein_distance]

/-- Word Error Rate (`asr-subtitle-compare/utils.py`, `calculate_wer`,
lines 58-80): DP distance over word lists.  The early return for an empty
reference and the final `(d[n][m] / len(reference)) * 100` are mirrored in
`calculate_wer` below. -/
def wer_dist : List (List Char) → List (List Char) → ℕ
  | [], hyp => hyp.length
  | r :: ref, [] => (r :: ref).length
  | r :: ref, h :: hyp =>
      if r = h then wer_dist ref hyp
      else
        min (wer_dist ref hyp + 1)
          (min (wer_dist (r :: ref) hyp + 1) (wer_dist ref (h :: hyp) + 1))
termination_by ref hyp => ref.length + hyp.length

/-- `calculate_wer` from asr-subtitle-compare/utils.py: returns percent. -/
def calculate_wer (reference hypothesis : List (List Char)) : ℚ :=
  if reference.length = 0 then
    (if hypothesis.length > 0 then 100 else 0)
  else ((wer_dist reference hypothesis : ℚ) / reference.length) * 100

/-- C6: the total edit distance returned by the Levenshtein scorer is
symmetric: the distance component of `levenshtein_ops(a, b)` equals the
distance component of `levenshtein_ops(b, a)`. -/
theorem levenshtein_distance_symm (a b : List Char) :
    levenshtein_distance a b = levenshtein_distance b a := by
  have key : ∀ n a b : _, a.length + b.length ≤ n →
      levenshtein_distance a b = levenshtein_distance b a := by
    intro n
    induction n with
    | zero =>
        intro a b hab
        have ha : a = [] := by
          cases a with
          | nil => rfl
          | cons x xs => simp only [List.length_cons] at hab; omega
        have hb : b = [] := by
          cases b with
          | nil => rfl
          | cons x xs => simp only [List.length_cons] at hab; omega
        subst ha; subst hb; rfl
    | succ n ih =>
        intro a b hab
        match a, b with
        | [], b =>
            rw [levenshtein_distance_nil_left, levenshtein_distance_nil_right]
        | a :: as, [] =>
            rw [levenshtein_distance_nil_left, levenshtein_distance_nil_right]
        | r :: ref, h :: hyp =>
            rw [levenshtein_distance, levenshtein_distance]
            simp only [List.length_cons] at hab
            have h1 : levenshtein_distance ref hyp = levenshtein_distance hyp ref :=
              ih ref hyp (by omega)
            have h2 : levenshtein_distance ref (h :: hyp) =
                levenshtein_distance (h :: hyp) ref :=
              ih ref (h :: hyp) (by simp; omega)
            have h3 : levenshtein_distance (r :: ref) hyp =
                levenshtein_distance hyp (r :: ref) :=
              ih (r :: ref) hyp (by simp; omega)
            have hc : (if r = h then (0 : ℕ) else 1) = (if h = r then 0 else 1) := by
              by_cases hrh : r = h
              · simp [hrh]
              · rw [if_neg hrh, if_neg (fun hh : h = r => hrh hh.symm)]
            rw [h1, h2, h3, hc]
            omega
  exact key (a.length + b.length) a b le_rfl

/-- C7: `calculate_wer` on an empty reference returns 100.0 when the
hypothesis is non-empty and 0.0 when both are empty. -/
theorem calculate_wer_empty_reference (hypothesis : List (List Char)) :
    (hypothesis ≠ [] → calculate_wer [] hypothesis = 100) ∧
    calculate_wer [] [] = 0 := by
  constructor
  · intro hne
    have : hypothesis.length > 0 := List.length_pos.mpr hne
    simp [calculate_wer, this]
  · rfl

theorem calculate_wer_empty_reference_witness :
    calculate_wer [] [['a']] = 100 ∧ calculate_wer [] [] = 0 :=
  ⟨(calculate_wer_empty_reference [['a']]).1 (by decide),
   (calculate_wer_empty_reference [['a']]).2⟩

/-! ### Mask utilities (`vad_filter_compare/compare_vad_wavs.py`) -/

/-- Truncation of a rational toward zero, as Python's `int(...)` applied to a
float quotient. -/
def pyInt (q : ℚ) : ℤ := if 0 ≤ q then ⌊q⌋ else ⌈q⌉

/-- Python slice `l[:x]` where the bound `x` may be negative (counting from
the end) and is clamped to the list. -/
def pyTake (l : List Bool) (x : ℤ) : List Bool :=
  if 0 ≤ x then l.take x.toNat else l.take (l.length - (-x).toNat)

/-- Python slice `l[x:]` where the bound `x` may be negative. -/
def pyDrop (l : List Bool) (x : ℤ) : List Bool :=
  if 0 ≤ x then l.drop x.toNat else l.drop (l.length - (-x).toNat)

/-- numpy slice assignment `out[<slice of length tlen>] = src`: succeeds when
the source has exactly the slice's length, or has length one (numpy
broadcasts a length-one source across the target slice); any other mismatch
raises a `ValueError`, modelled as `none`. -/
def assign_bcast (tlen : ℕ) (src : List Bool) : Option (List Bool) :=
  if src.length = tlen then some src
  else if src.length = 1 then some (List.replicate tlen (src.headD false))
  else none

/-- `shift_mask` (compare_vad_wavs.py, lines 63-71): `out = np.zeros_like(m)`;
for `sh > 0`, `out[:len(m)-sh] = m[sh:]`; for `sh < 0`, `out[-sh:] =
m[:len(m)+sh]`.  The result is `none` exactly when the numpy assignment
raises a broadcast `ValueError` (mismatched slice lengths). -/
def shift_mask (m : List Bool) (sh : ℤ) : Option (List Bool) :=
  if sh = 0 then some m
  else if 0 < sh then
    let src := pyDrop m sh
    let tlen := (pyTake m ((m.length : ℤ) - sh)).length
    (assign_bcast tlen src).map
      (fun filled => filled ++ List.replicate (m.length - tlen) false)
  else
    let src := pyTake m ((m.length : ℤ) + sh)
    let tlen := m.length - min (-sh).toNat m.length
    (assign_bcast tlen src).map
      (fun filled => List.replicate (m.length - tlen) false ++ filled)

/-- Running prefix sums, as `np.cumsum` (same length as the input, first
entry equal to the first element). -/
def cumsum (l : List ℚ) : List ℚ := (l.scanl (fun a b => a + b) 0).drop 1

/-- Models the comparison `sqrt(rms2 + 1e-12) >= eps` from `moving_rms_mask`
without square roots: the radicand is nonnegative, so the comparison is
equivalent to `eps <= 0` or `eps^2 <= rms2 + 1e-12`. -/
def rms_ge (rms2 eps : ℚ) : Bool :=
  decide (eps ≤ 0) || decide (eps ^ 2 ≤ rms2 + 1 / 1000000000000)

/-- `moving_rms_mask` (compare_vad_wavs.py, lines 27-41): moving-RMS
speech/silence mask.  `win = max(1, int(sr*win_ms/1000))`, the squared signal
is zero-padded by `win // 2` on both sides, windowed mean squares are taken
from the cumulative sums, thresholded at `eps`, and the mask is padded with
zeros or truncated to the signal's length. -/
def moving_rms_mask (x : List ℚ) (sr : ℕ) (win_ms eps : ℚ) : List Bool :=
  let win : ℕ := (max 1 (pyInt ((sr : ℚ) * win_ms / 1000))).toNat
  let pad : ℕ := win / 2
  let x2 : List ℚ := List.replicate pad 0 ++ x.map (fun v => v ^ 2) ++ List.replicate pad 0
  let cs := cumsum x2
  let rms2 := List.zipWith (fun hi lo => (hi - lo) / (win : ℚ))
    (cs.drop win) (cs.take (cs.length - win))
  let m := rms2.map (fun r => rms_ge r eps)
  if m.length < x.length then m ++ List.replicate (x.length - m.length) false
  else m.take x.length

/-- `compare_masks` (compare_vad_wavs.py, lines 104-134), restricted to its
IoU/precision/recall components (the source additionally rounds these for
display and reports run statistics).  Each ratio falls back to `1.0` when its
denominator is zero. -/
def compare_masks_metrics (go_m py_m : List Bool) : ℚ × ℚ × ℚ :=
  let inter : ℕ := (go_m.zip py_m).countP (fun p => p.1 && p.2)
  let uni : ℕ := (go_m.zip py_m).countP (fun p => p.1 || p.2)
  let go_n : ℕ := go_m.countP id
  let py_n : ℕ := py_m.countP id
  let iou : ℚ := if uni ≠ 0 then (inter : ℚ) / uni else 1
  let prec : ℚ := if go_n ≠ 0 then (inter : ℚ) / go_n else 1
  let recl : ℚ := if py_n ≠ 0 then (inter : ℚ) / py_n else 1
  (iou, prec, recl)

/-- C9 counterexample: the claim quantifies over every shift, but for a mask
of length 4 and shift 5 the numpy assignment `out[:-1] = m[5:]` tries to
broadcast an empty array into a slice of length 3 and raises, so `shift_mask`
does not return a mask at all. -/
theorem shift_mask_raises_counterexample :
    shift_mask [true, true, true, true] 5 = none := by decide

/-- C9 (amended): `moving_rms_mask` always returns a mask of the signal's
length, and whenever `shift_mask` returns a mask (no broadcast error, e.g.
for any `|sh| ≤ len(m)`), that mask has the length of its input. -/
theorem mask_length_invariants :
    (∀ (x : List ℚ) (sr : ℕ) (win_ms eps : ℚ),
        (moving_rms_mask x sr win_ms eps).length = x.length) ∧
    (∀ (m : List Bool) (sh : ℤ) (out : List Bool),
        shift_mask m sh = some out → out.length = m.length) := by
  constructor
  · intro x sr win_ms eps
    simp only [moving_rms_mask]
    split
    · next h =>
        simp only [List.length_append, List.length_replicate]
        omega
    · next h =>
        simp only [List.length_take]
        omega
  · intro m sh out h
    have hbc : ∀ tlen src filled, assign_bcast tlen src = some filled →
        filled.length = tlen := by
      intro tlen src filled hb
      simp only [assign_bcast] at hb
      split at hb
      · next he => cases hb; omega
      · split at hb
        · cases hb; simp
        · cases hb
    simp only [shift_mask] at h
    split at h
    · cases h; rfl
    · split at h
      · rcases Option.map_eq_some'.mp h with ⟨filled, hfb, hout⟩
        have h1 := hbc _ _ _ hfb
        have h2 : (pyTake m ((m.length : ℤ) - sh)).length ≤ m.length := by
          simp only [pyTake]
          split <;> simp [List.length_take]
        subst hout
        simp only [List.length_append, List.length_replicate, h1]
        omega
      · rcases Option.map_eq_some'.mp h with ⟨filled, hfb, hout⟩
        have h1 := hbc _ _ _ hfb
        subst hout
        simp only [List.length_append, List.length_replicate, h1]
        omega

theorem mask_length_invariants_witness :
    ([false, false] : List Bool).length = ([true, false] : List Bool).length :=
  mask_length_invariants.2 [true, false] 1 [false, false] (by decide)

/-- C10: the degenerate fallbacks of `compare_masks`: empty union gives IoU
1.0, an all-false first mask gives precision 1.0, an all-false second mask
gives recall 1.0; in particular two all-false masks compare as perfect
agreement instead of dividing by zero. -/
theorem compare_masks_degenerate (go_m py_m : List Bool) :
    ((go_m.zip py_m).countP (fun p => p.1 || p.2) = 0 →
        (compare_masks_metrics go_m py_m).1 = 1) ∧
    (go_m.countP id = 0 → (compare_masks_metrics go_m py_m).2.1 = 1) ∧
    (py_m.countP id = 0 → (compare_masks_metrics go_m py_m).2.2 = 1) ∧
    (∀ n, compare_masks_metrics (List.replicate n false) (List.replicate n false)
        = (1, 1, 1)) := by
  refine ⟨fun h => ?_, fun h => ?_, fun h => ?_, fun n => ?_⟩
  · simp [compare_masks_metrics, h]
  · simp [compare_masks_metrics, h]
  · simp [compare_masks_metrics, h]
  · have hz : List.zip (List.replicate n false) (List.replicate n false)
        = List.replicate n (false, false) := by
      simp [List.zip_replicate]
    have h1 : (List.replicate n (false, false)).countP
        (fun p : Bool × Bool => p.1 || p.2) = 0 := by
      apply List.countP_eq_zero.mpr
      intro a ha
      rw [List.eq_of_mem_replicate ha]
      simp
    have h2 : (List.replicate n (false, false)).countP
        (fun p : Bool × Bool => p.1 && p.2) = 0 := by
      apply List.countP_eq_zero.mpr
      intro a ha
      rw [List.eq_of_mem_replicate ha]
      simp
    have h3 : (List.replicate n false).countP id = 0 := by
      apply List.countP_eq_zero.mpr
      intro a ha
      rw [List.eq_of_mem_replicate ha]
      simp
    simp [compare_masks_metrics, hz, h1, h2, h3]

theorem compare_masks_degenerate_witness :
    (compare_masks_metrics [false] [false]).1 = 1 ∧
    (compare_masks_metrics [false] [false]).2.1 = 1 ∧
    (compare_masks_metrics [false] [false]).2.2 = 1 :=
  ⟨(compare_masks_degenerate [false] [false]).1 (by decide),
   (compare_masks_degenerate [false] [false]).2.1 (by decide),
   (compare_masks_degenerate [false] [false]).2.2.1 (by decide)⟩

/-! ### Mask alignment (`compare_vad_wavs.py`, `best_offset`) -/

/-- The scanned shifts `range(-max_shift, max_shift + 1)` in order. -/
def shiftRange (k : ℕ) : List ℤ :=
  (List.range (2 * k + 1)).map (fun t : ℕ => (t : ℤ) - (k : ℤ))

/-- numpy element-wise `&` of two uint8 masks: defined when the lengths agree
or one operand has length one (which broadcasts); otherwise a `ValueError`,
modelled as `none`. -/
def npAnd (xs ys : List Bool) : Option (List Bool) :=
  if xs.length = ys.length then some (List.zipWith (fun p q => p && q) xs ys)
  else if xs.length = 1 then some (ys.map (fun q => xs.headD false && q))
  else if ys.length = 1 then some (xs.map (fun p => p && ys.headD false))
  else none

/-- `a_seg` of `best_offset` (compare_vad_wavs.py, lines 50-55):
`a[:len(a)-sh]` for `sh >= 0`, `a[-sh:]` otherwise. -/
def a_seg_of (a : List Bool) (sh : ℤ) : List Bool :=
  if 0 ≤ sh then pyTake a ((a.length : ℤ) - sh) else pyDrop a (-sh)

/-- `b_seg` of `best_offset`: `b[sh:]` for `sh >= 0`, `b[:len(b)+sh]`
otherwise. -/
def b_seg_of (b : List Bool) (sh : ℤ) : List Bool :=
  if 0 ≤ sh then pyDrop b sh else pyTake b ((b.length : ℤ) + sh)

/-- `int(np.sum(a_seg & b_seg))` for one candidate shift: the AND-overlap
count, or `none` when the numpy `&` raises. -/
def bo_score (a b : List Bool) (sh : ℤ) : Option ℕ :=
  (npAnd (a_seg_of a sh) (b_seg_of b sh)).map (fun v => v.count true)

/-- One iteration of the `best_offset` scan: skip when `len(a_seg) == 0`,
propagate a raised error, otherwise keep the candidate iff its score strictly
exceeds the best so far. -/
def bo_step (a b : List Bool) (st : Option (ℤ × ℤ)) (sh : ℤ) : Option (ℤ × ℤ) :=
  st.bind (fun p =>
    if (a_seg_of a sh).length = 0 then some p
    else (bo_score a b sh).map (fun v : ℕ =>
      if (v : ℤ) > p.2 then (sh, (v : ℤ)) else p))

/-- `best_offset` (compare_vad_wavs.py, lines 44-61) at the sample level:
scan shifts from `-max_shift` to `+max_shift` starting from
`(best_sh, best_score) = (0, -1)`. -/
def best_offset_samples (a b : List Bool) (max_shift : ℕ) : Option ℤ :=
  ((shiftRange max_shift).foldl (bo_step a b) (some ((0 : ℤ), (-1 : ℤ)))).map Prod.fst

/-- `best_offset` as called in the source: the sample bound is derived from
a millisecond bound and the sample rate. -/
def best_offset (a b : List Bool) (max_shift_ms : ℚ) (sr : ℕ) : Option ℤ :=
  let max_shift := pyInt ((sr : ℚ) * max_shift_ms / 1000)
  if max_shift < 0 then some 0 else best_offset_samples a b max_shift.toNat

theorem bo_foldl_none (a b : List Bool) (l : List ℤ) :
    l.foldl (bo_step a b) none = none := by
  induction l with
  | nil => rfl
  | cons x xs ih => simpa [bo_step] using ih

theorem bo_fold_max (a b : List Bool) (l : List ℤ) :
    ∀ (bs bv r rv : ℤ),
    l.foldl (bo_step a b) (some (bs, bv)) = some (r, rv) →
    bv ≤ rv ∧
    (∀ s ∈ l, (a_seg_of a s).length ≠ 0 →
      ∀ v : ℕ, bo_score a b s = some v → (v : ℤ) ≤ rv) ∧
    ((r = bs ∧ rv = bv) ∨
      (r ∈ l ∧ (a_seg_of a r).length ≠ 0 ∧
        (∃ w : ℕ, bo_score a b r = some w ∧ (w : ℤ) = rv) ∧ bv < rv)) := by
  induction l with
  | nil =>
      intro bs bv r rv h
      simp only [List.foldl_nil, Option.some.injEq, Prod.mk.injEq] at h
      exact ⟨le_of_eq h.2, by simp, Or.inl ⟨h.1.symm, h.2.symm⟩⟩
  | cons x xs ih =>
      intro bs bv r rv h
      simp only [List.foldl_cons, bo_step, Option.some_bind] at h
      by_cases hskip : (a_seg_of a x).length = 0
      · rw [if_pos hskip] at h
        obtain ⟨h1, h2, h3⟩ := ih bs bv r rv h
        refine ⟨h1, ?_, ?_⟩
        · intro s hs hcons v hv
          rcases List.mem_cons.mp hs with hsx | hsxs
          · exact absurd hcons (by rw [hsx]; simp [hskip])
          · exact h2 s hsxs hcons v hv
        · rcases h3 with h3 | ⟨hm, hc, hw, hlt⟩
          · exact Or.inl h3
          · exact Or.inr ⟨List.mem_cons_of_mem _ hm, hc, hw, hlt⟩
      · rw [if_neg hskip] at h
        cases hsc : bo_score a b x with
        | none =>
            rw [hsc] at h
            simp only [Option.map_none'] at h
            rw [bo_foldl_none] at h
            cases h
        | some vx =>
            rw [hsc] at h
            simp only [Option.map_some'] at h
            by_cases hgt : (vx : ℤ) > bv
            · rw [if_pos hgt] at h
              obtain ⟨h1, h2, h3⟩ := ih x (vx : ℤ) r rv h
              refine ⟨le_of_lt (lt_of_lt_of_le hgt h1), ?_, ?_⟩
              · intro s hs hcons v hv
                rcases List.mem_cons.mp hs with hsx | hsxs
                · subst hsx
                  rw [hsc] at hv
                  cases hv
                  exact h1
                · exact h2 s hsxs hcons v hv
              · rcases h3 with ⟨hr, hrv⟩ | ⟨hm, hc, hw, hlt⟩
                · subst hr
                  exact Or.inr ⟨List.mem_cons_self _ _, hskip, ⟨vx, hsc, hrv.symm⟩,
                    by rw [hrv]; exact hgt⟩
                · exact Or.inr ⟨List.mem_cons_of_mem _ hm, hc, hw, lt_trans hgt hlt⟩
            · rw [if_neg hgt] at h
              obtain ⟨h1, h2, h3⟩ := ih bs bv r rv h
              refine ⟨h1, ?_, ?_⟩
              · intro s hs hcons v hv
                rcases List.mem_cons.mp hs with hsx | hsxs
                · subst hsx
                  rw [hsc] at hv
                  cases hv
                  exact le_trans (le_of_not_lt hgt) h1
                · exact h2 s hsxs hcons v hv
              · rcases h3 with h3 | ⟨hm, hc, hw, hlt⟩
                · exact Or.inl h3
                · exact Or.inr ⟨List.mem_cons_of_mem _ hm, hc, hw, hlt⟩

theorem bo_fold_ties (a b : List Bool) (l : List ℤ) :
    l.Pairwise (· < ·) →
    ∀ (bs bv r rv : ℤ),
    l.foldl (bo_step a b) (some (bs, bv)) = some (r, rv) →
    ∀ s ∈ l, (a_seg_of a s).length ≠ 0 →
    ∀ v : ℕ, bo_score a b s = some v → (v : ℤ) = rv →
    r ≤ s ∨ (r = bs ∧ rv = bv) := by
  induction l with
  | nil => intro _ bs bv r rv _ s hs; cases hs
  | cons x xs ih =>
      intro hp bs bv r rv h s hs hcons v hv hvrv
      rw [List.pairwise_cons] at hp
      simp only [List.foldl_cons, bo_step, Option.some_bind] at h
      by_cases hskip : (a_seg_of a x).length = 0
      · rw [if_pos hskip] at h
        rcases List.mem_cons.mp hs with hsx | hsxs
        · exact absurd hcons (by rw [hsx]; simp [hskip])
        · exact ih hp.2 bs bv r rv h s hsxs hcons v hv hvrv
      · rw [if_neg hskip] at h
        cases hsc : bo_score a b x with
        | none =>
            rw [hsc] at h
            simp only [Option.map_none'] at h
            rw [bo_foldl_none] at h
            cases h
        | some vx =>
            rw [hsc] at h
            simp only [Option.map_some'] at h
            by_cases hgt : (vx : ℤ) > bv
            · rw [if_pos hgt] at h
              rcases List.mem_cons.mp hs with hsx | hsxs
              · subst hsx
                rw [hsc] at hv
                cases hv
                obtain ⟨_, _, h3⟩ := bo_fold_max a b xs _ _ r rv h
                rcases h3 with ⟨hr, _⟩ | ⟨_, _, _, hlt⟩
                · exact Or.inl (le_of_eq hr)
                · exact absurd hvrv (by omega)
              · rcases ih hp.2 x (vx : ℤ) r rv h s hsxs hcons v hv hvrv with
                  hle | ⟨hr, _⟩
                · exact Or.inl hle
                · exact Or.inl (le_of_lt (hr ▸ hp.1 s hsxs))
            · rw [if_neg hgt] at h
              rcases List.mem_cons.mp hs with hsx | hsxs
              · subst hsx
                rw [hsc] at hv
                cases hv
                obtain ⟨_, _, h3⟩ := bo_fold_max a b xs _ _ r rv h
                rcases h3 with ⟨hr, hrv⟩ | ⟨_, _, _, hlt⟩
                · exact Or.inr ⟨hr, hrv⟩
                · exact absurd hvrv (by omega)
              · exact ih hp.2 bs bv r rv h s hsxs hcons v hv hvrv

theorem bo_fold_some (a b : List Bool) (l : List ℤ) :
    ∀ st : ℤ × ℤ,
    (∀ s ∈ l, (a_seg_of a s).length ≠ 0 → (bo_score a b s).isSome) →
    ∃ p : ℤ × ℤ, l.foldl (bo_step a b) (some st) = some p := by
  induction l with
  | nil => exact fun st _ => ⟨st, rfl⟩
  | cons x xs ih =>
      intro st hall
      simp only [List.foldl_cons, bo_step, Option.some_bind]
      by_cases hskip : (a_seg_of a x).length = 0
      · rw [if_pos hskip]
        exact ih st (fun s hs => hall s (List.mem_cons_of_mem _ hs))
      · rw [if_neg hskip]
        cases hsc : bo_score a b x with
        | none =>
            have := hall x (List.mem_cons_self x xs) hskip
            rw [hsc] at this
            cases this
        | some vx =>
            simp only [Option.map_some']
            exact ih _ (fun s hs => hall s (List.mem_cons_of_mem _ hs))

theorem shiftRange_pairwise (k : ℕ) : (shiftRange k).Pairwise (· < ·) := by
  unfold shiftRange
  refine List.pairwise_map.mpr ?_
  exact (List.pairwise_lt_range _).imp (fun h => by omega)

theorem mem_shiftRange (k : ℕ) (s : ℤ) :
    s ∈ shiftRange k ↔ -(k : ℤ) ≤ s ∧ s ≤ k := by
  constructor
  · intro hs
    unfold shiftRange at hs
    rcases List.mem_map.mp hs with ⟨t, ht, rfl⟩
    have ht2 := List.mem_range.mp ht
    constructor <;> omega
  · intro h
    unfold shiftRange
    exact List.mem_map.mpr ⟨(s + (k : ℤ)).toNat, List.mem_range.mpr (by omega), by omega⟩

/-- C3 (amended): `best_offset` breaks ties by scan order from `-max_shift`
to `+max_shift`, i.e. among shifts achieving the maximal AND-overlap count it
returns the least (most negative) tying shift — not the tying shift of
smallest absolute value. -/
theorem best_offset_first_max (a b : List Bool) (k : ℕ) (r : ℤ)
    (hr : best_offset_samples a b k = some r)
    (s : ℤ) (hs : s ∈ shiftRange k) (hcons : (a_seg_of a s).length ≠ 0)
    (v : ℕ) (hv : bo_score a b s = some v) :
    ∃ w : ℕ, bo_score a b r = some w ∧ v ≤ w ∧ (v = w → r ≤ s) := by
  unfold best_offset_samples at hr
  rcases Option.map_eq_some'.mp hr with ⟨⟨r2, rv⟩, hfold, hr2⟩
  have hr2' : r2 = r := hr2
  subst hr2'
  obtain ⟨_, hmax, hbest⟩ := bo_fold_max a b _ _ _ _ _ hfold
  have hvle := hmax s hs hcons v hv
  rcases hbest with ⟨_, hrv⟩ | ⟨hmem, hcons2, ⟨w, hw, hwrv⟩, _⟩
  · exfalso; omega
  · refine ⟨w, hw, by omega, ?_⟩
    intro hvw
    have hties := bo_fold_ties a b _ (shiftRange_pairwise k) _ _ _ _ hfold
      s hs hcons v hv (by omega)
    rcases hties with hle | ⟨_, hrv⟩
    · exact hle
    · exfalso; omega

theorem best_offset_first_max_witness :
    ∃ w : ℕ, bo_score [true] [true] 0 = some w ∧ 1 ≤ w ∧ (1 = w → (0 : ℤ) ≤ 0) :=
  best_offset_first_max [true] [true] 0 0 (by decide) 0 (by decide) (by decide)
    1 (by decide)

/-- C3 counterexample: with `a = [1,0,0,0,0,1]`, `b = [0,1,0,1,0,0]` and
`max_shift = 2`, the shifts `-2` and `+1` tie at the maximal overlap count 1
(every scanned shift scores at most 1), and `best_offset` returns `-2` even
though `|+1| < |-2|`, refuting the smallest-absolute-value tie-break. -/
theorem best_offset_smallest_abs_counterexample :
    best_offset_samples [true, false, false, false, false, true]
        [false, true, false, true, false, false] 2 = some (-2) ∧
    bo_score [true, false, false, false, false, true]
        [false, true, false, true, false, false] 1 = some 1 ∧
    bo_score [true, false, false, false, false, true]
        [false, true, false, true, false, false] (-2) = some 1 ∧
    (∀ s ∈ shiftRange 2,
        (bo_score [true, false, false, false, false, true]
          [false, true, false, true, false, false] s).getD 0 ≤ 1) ∧
    (1 : ℤ).natAbs < (-2 : ℤ).natAbs := by decide

theorem zipWith_and_self (m : List Bool) :
    List.zipWith (fun p q => p && q) m m = m := by
  induction m with
  | nil => rfl
  | cons x xs ih => simp [ih]

theorem count_zipWith_and_le_left (xs ys : List Bool) :
    (List.zipWith (fun p q => p && q) xs ys).count true ≤ xs.count true := by
  induction xs generalizing ys with
  | nil => simp
  | cons x xs ih =>
      cases ys with
      | nil => simp
      | cons y ys =>
          have := ih ys
          cases x <;> cases y <;> simp [List.count_cons] <;> omega

theorem count_zipWith_and_le_right (xs ys : List Bool) :
    (List.zipWith (fun p q => p && q) xs ys).count true ≤ ys.count true := by
  induction xs generalizing ys with
  | nil => simp
  | cons x xs ih =>
      cases ys with
      | nil => simp
      | cons y ys =>
          have := ih ys
          cases x <;> cases y <;> simp [List.count_cons] <;> omega

theorem count_zipWith_and_comm (xs ys : List Bool) :
    (List.zipWith (fun p q => p && q) xs ys).count true
      = (List.zipWith (fun p q => p && q) ys xs).count true := by
  induction xs generalizing ys with
  | nil => simp
  | cons x xs ih =>
      cases ys with
      | nil => simp
      | cons y ys =>
          simp only [List.zipWith_cons_cons, List.count_cons, ih ys]
          rw [Bool.and_comm]

theorem zipWith_take_left_length (f : Bool → Bool → Bool) (xs ys : List Bool) :
    List.zipWith f (xs.take ys.length) ys = List.zipWith f xs ys := by
  induction xs generalizing ys with
  | nil => simp
  | cons x xs ih =>
      cases ys with
      | nil => simp
      | cons y ys =>
          simp only [List.length_cons, List.take_succ_cons, List.zipWith_cons_cons]
          rw [ih ys]

theorem count_zipWith_and_drop_lt (t : ℕ) (m : List Bool) (hm : true ∈ m) :
    (List.zipWith (fun p q => p && q) m (m.drop (t + 1))).count true
      < m.count true := by
  induction m with
  | nil => cases hm
  | cons x xs ih =>
      rw [List.drop_succ_cons]
      cases hdrop : xs.drop t with
      | nil =>
          rw [List.zipWith_nil_right]
          simpa using List.count_pos_iff.mpr hm
      | cons hd rest =>
          have hrest : rest = xs.drop (t + 1) := by
            have := List.tail_drop xs t
            rw [hdrop] at this
            simpa using this
          subst hrest
          rw [List.zipWith_cons_cons]
          cases x with
          | false =>
              have hm2 : true ∈ xs := by
                rcases List.mem_cons.mp hm with hx | hx
                · cases hx
                · exact hx
              have := ih hm2
              simp only [Bool.false_and, List.count_cons]
              simp only [List.count_cons] at this ⊢
              omega
          | true =>
              by_cases hm2 : true ∈ xs
              · have := ih hm2
                cases hd <;> simp [List.count_cons] at this ⊢ <;> omega
              · have h0 : xs.count true = 0 := List.count_eq_zero.mpr hm2
                have hz := count_zipWith_and_le_left xs (xs.drop (t + 1))
                have hdf : hd = false := by
                  have hmemd : hd ∈ xs :=
                    List.mem_of_mem_drop (l := xs) (n := t)
                      (by rw [hdrop]; exact List.mem_cons_self _ _)
                  cases hd with
                  | false => rfl
                  | true => exact absurd hmemd hm2
                subst hdf
                simp [List.count_cons]
                omega

theorem a_seg_of_zero (m : List Bool) : a_seg_of m 0 = m := by
  simp [a_seg_of, pyTake]

theorem self_seg_lengths (m : List Bool) (sh : ℤ) (h : sh.natAbs ≤ m.length) :
    (a_seg_of m sh).length = (b_seg_of m sh).length := by
  simp only [a_seg_of, b_seg_of, pyTake, pyDrop]
  split_ifs <;> simp [List.length_take, List.length_drop] <;> omega

theorem npAnd_eq_length (xs ys : List Bool) (h : xs.length = ys.length) :
    npAnd xs ys = some (List.zipWith (fun p q => p && q) xs ys) := by
  rw [npAnd, if_pos h]

theorem bo_score_of_eq_length (a b : List Bool) (sh : ℤ)
    (h : (a_seg_of a sh).length = (b_seg_of b sh).length) :
    bo_score a b sh = some
      ((List.zipWith (fun p q => p && q) (a_seg_of a sh) (b_seg_of b sh)).count true) := by
  rw [bo_score, npAnd_eq_length _ _ h]
  rfl

theorem bo_score_self_zero (m : List Bool) :
    bo_score m m 0 = some (m.count true) := by
  have hb : b_seg_of m 0 = m := by simp [b_seg_of, pyDrop]
  have h := bo_score_of_eq_length m m 0 (by rw [a_seg_of_zero, hb])
  rw [a_seg_of_zero, hb, zipWith_and_self] at h
  exact h

theorem a_seg_of_self_pos (m : List Bool) (sh : ℤ) (h0 : 0 ≤ sh)
    (h : sh.natAbs ≤ m.length) :
    a_seg_of m sh = m.take (m.length - sh.toNat) := by
  have ht : ((m.length : ℤ) - sh).toNat = m.length - sh.toNat := by omega
  simp only [a_seg_of, if_pos h0, pyTake]
  split_ifs with hc
  · rw [ht]
  · exact absurd (by omega : (0 : ℤ) ≤ (m.length : ℤ) - sh) hc

theorem b_seg_of_self_pos (m : List Bool) (sh : ℤ) (h0 : 0 ≤ sh) :
    b_seg_of m sh = m.drop sh.toNat := by
  simp [b_seg_of, pyDrop, h0]

theorem a_seg_of_self_neg (m : List Bool) (sh : ℤ) (h0 : sh < 0) :
    a_seg_of m sh = m.drop (-sh).toNat := by
  simp only [a_seg_of, pyDrop, if_neg (by omega : ¬(0 : ℤ) ≤ sh),
    if_pos (by omega : (0 : ℤ) ≤ -sh)]

theorem b_seg_of_self_neg (m : List Bool) (sh : ℤ) (h0 : sh < 0)
    (h : sh.natAbs ≤ m.length) :
    b_seg_of m sh = m.take (m.length - (-sh).toNat) := by
  have ht : ((m.length : ℤ) + sh).toNat = m.length - (-sh).toNat := by omega
  simp only [b_seg_of, pyTake, if_neg (by omega : ¬(0 : ℤ) ≤ sh),
    if_pos (by omega : (0 : ℤ) ≤ (m.length : ℤ) + sh), ht]

theorem bo_score_self_le (m : List Bool) (sh : ℤ) (hsh : sh.natAbs ≤ m.length)
    (v : ℕ) (hv : bo_score m m sh = some v) : v ≤ m.count true := by
  rw [bo_score_of_eq_length m m sh (self_seg_lengths m sh hsh)] at hv
  cases hv
  by_cases h0 : 0 ≤ sh
  · calc (List.zipWith (fun p q => p && q) (a_seg_of m sh) (b_seg_of m sh)).count true
        ≤ (b_seg_of m sh).count true := count_zipWith_and_le_right _ _
      _ ≤ m.count true := by
          rw [b_seg_of_self_pos m sh h0]
          exact (List.drop_sublist _ _).count_le _
  · calc (List.zipWith (fun p q => p && q) (a_seg_of m sh) (b_seg_of m sh)).count true
        ≤ (a_seg_of m sh).count true := count_zipWith_and_le_left _ _
      _ ≤ m.count true := by
          rw [a_seg_of_self_neg m sh (by omega)]
          exact (List.drop_sublist _ _).count_le _

theorem bo_score_self_neg_lt (m : List Bool) (sh : ℤ) (hneg : sh < 0)
    (hsh : sh.natAbs ≤ m.length) (hm : true ∈ m)
    (v : ℕ) (hv : bo_score m m sh = some v) : v < m.count true := by
  rw [bo_score_of_eq_length m m sh (self_seg_lengths m sh hsh)] at hv
  cases hv
  rw [a_seg_of_self_neg m sh hneg, b_seg_of_self_neg m sh hneg hsh]
  rw [count_zipWith_and_comm]
  have hlen : m.length - (-sh).toNat = (m.drop (-sh).toNat).length := by
    rw [List.length_drop]
  rw [hlen, zipWith_take_left_length]
  obtain ⟨t, ht⟩ : ∃ t : ℕ, (-sh).toNat = t + 1 := ⟨(-sh).toNat - 1, by omega⟩
  rw [ht]
  exact count_zipWith_and_drop_lt t m hm

/-- C5 counterexample: the claim quantifies over every bound `k ≥ 0`, but for
the non-degenerate mask `[1,1,1]` and `k = 4` the scan reaches shift `+4`,
where `a_seg = a[:-1]` has length 2 while `b_seg = b[4:]` is empty, so the
numpy `&` raises a broadcast `ValueError` instead of returning 0. -/
theorem best_offset_self_raises_counterexample :
    best_offset_samples [true, true, true] [true, true, true] 4 = none := by decide

/-- C5 (amended): for every mask containing at least one `true` and every
search bound `k ≤ len(mask)` (bounds beyond the mask length can raise a
numpy broadcast error), aligning the mask against itself returns shift 0. -/
theorem best_offset_self_zero (m : List Bool) (k : ℕ)
    (hm : true ∈ m) (hk : k ≤ m.length) :
    best_offset_samples m m k = some 0 := by
  have hdef : ∀ s ∈ shiftRange k, (a_seg_of m s).length ≠ 0 →
      (bo_score m m s).isSome := by
    intro s hs _
    have habs : s.natAbs ≤ m.length := by
      have := (mem_shiftRange k s).mp hs
      omega
    rw [bo_score_of_eq_length m m s (self_seg_lengths m s habs)]
    rfl
  obtain ⟨⟨r, rv⟩, hfold⟩ := bo_fold_some m m (shiftRange k) (0, -1) hdef
  have hbo : best_offset_samples m m k = some r := by
    rw [best_offset_samples, hfold]
    rfl
  have hcpos : 0 < m.count true := List.count_pos_iff.mpr hm
  have h0mem : (0 : ℤ) ∈ shiftRange k := (mem_shiftRange k 0).mpr (by omega)
  have h0cons : (a_seg_of m 0).length ≠ 0 := by
    rw [a_seg_of_zero]
    have : m ≠ [] := List.ne_nil_of_mem hm
    simpa [List.length_eq_zero] using this
  obtain ⟨_, hmax, hbest⟩ := bo_fold_max m m _ _ _ _ _ hfold
  have hcle := hmax 0 h0mem h0cons _ (bo_score_self_zero m)
  rcases hbest with ⟨hr0, hrv⟩ | ⟨hmem, hconsr, ⟨w, hw, hwrv⟩, _⟩
  · exfalso; omega
  · have habsr : r.natAbs ≤ m.length := by
      have := (mem_shiftRange k r).mp hmem
      omega
    have hwle : w ≤ m.count true := bo_score_self_le m r habsr w hw
    have hrnonneg : 0 ≤ r := by
      by_contra hneg
      push_neg at hneg
      have := bo_score_self_neg_lt m r hneg habsr hm w hw
      omega
    have hties := bo_fold_ties m m _ (shiftRange_pairwise k) _ _ _ _ hfold
      0 h0mem h0cons _ (bo_score_self_zero m) (by omega)
    rcases hties with hle | ⟨_, hrv1⟩
    · rw [hbo, le_antisymm hle hrnonneg]
    · exfalso; omega

theorem best_offset_self_zero_witness :
    best_offset_samples [true] [true] 1 = some 0 :=
  best_offset_self_zero [true] 1 (by decide) (by decide)

/-! ### Long-silence suppressor (`vad_filter/make_filter_cli.py`) -/

/-- The run-scanning loop of `vad_filter_only` (make_filter_cli.py, lines
84-98), returning the (inclusive) index intervals `[sil_start, i]` that the
loop zeroes.  At each non-speech sample the loop opens or continues a silence
run (`in_sil`, `sil_start`); when the run ends (`is_last or next_is_speech`)
the run is recorded iff its duration `(i - sil_start + 1) / sr` reaches the
threshold, and `in_sil` resets. -/
def vadAux (mask : List Bool) (sr : ℕ) (d : ℚ) (i : ℕ) (in_sil : Bool)
    (sil_start : ℕ) : List (ℕ × ℕ) :=
  if _h : i < mask.length then
    if mask.getD i false = true then
      vadAux mask sr d (i + 1) in_sil sil_start
    else
      let sil_start2 := cond in_sil sil_start i
      if i = mask.length - 1 ∨
          (¬i = mask.length - 1 ∧ mask.getD (i + 1) false = true) then
        (if d ≤ ((i - sil_start2 + 1 : ℕ) : ℚ) / (sr : ℚ)
          then [(sil_start2, i)] else [])
          ++ vadAux mask sr d (i + 1) false sil_start2
      else
        vadAux mask sr d (i + 1) true sil_start2
  else []
termination_by mask.length - i

/-- The in-place zeroing `processed[sil_start:i+1] = 0.0` of the scan,
expressed index-wise: a sample keeps its value unless it lies in one of the
zeroed intervals. -/
def suppress_long_silence (signal : List ℚ) (mask : List Bool) (sr : ℕ)
    (d : ℚ) : List ℚ :=
  let zeroed := vadAux mask sr d 0 false 0
  (List.range signal.length).map (fun j =>
    if zeroed.any (fun p => decide (p.1 ≤ j ∧ j ≤ p.2)) then 0
    else signal.getD j 0)

/-- A maximal run of `false` entries of `mask`, spanning indices `s..e`
inclusive: all entries in the range are `false`, and the run is bounded by
the mask's edges or by `true` entries. -/
def MaximalFalseRun (mask : List Bool) (s e : ℕ) : Prop :=
  s ≤ e ∧ e < mask.length ∧
  (∀ j, s ≤ j → j ≤ e → mask[j]? = some false) ∧
  (s = 0 ∨ mask[s - 1]? = some true) ∧
  (e = mask.length - 1 ∨ mask[e + 1]? = some true)

/-- The runs selected for zeroing from position `lo` onwards: maximal false
runs whose duration reaches the threshold. -/
def RunSel (mask : List Bool) (sr : ℕ) (d : ℚ) (lo : ℕ) (p : ℕ × ℕ) : Prop :=
  MaximalFalseRun mask p.1 p.2 ∧ lo ≤ p.1 ∧
  d ≤ ((p.2 - p.1 + 1 : ℕ) : ℚ) / (sr : ℚ)

/-- Loop invariant of the scan when not inside a silence run: the position is
past the end, at the start, just after a speech sample, or on a speech
sample. -/
def VadPreF (mask : List Bool) (i : ℕ) : Prop :=
  mask.length ≤ i ∨ i = 0 ∨ mask[i - 1]? = some true ∨ mask[i]? = some true

/-- Loop invariant of the scan while inside a silence run started at `s`. -/
def VadPreT (mask : List Bool) (i s : ℕ) : Prop :=
  s < i ∧ i < mask.length ∧ (∀ j, s ≤ j → j < i → mask[j]? = some false) ∧
  (s = 0 ∨ mask[s - 1]? = some true) ∧ mask[i]? = some false

theorem maximalFalseRun_unique (mask : List Bool) (s1 e1 s2 e2 j : ℕ)
    (h1 : MaximalFalseRun mask s1 e1) (h2 : MaximalFalseRun mask s2 e2)
    (hj1 : s1 ≤ j) (hj2 : j ≤ e1) (hj3 : s2 ≤ j) (hj4 : j ≤ e2) :
    s1 = s2 ∧ e1 = e2 := by
  obtain ⟨hse1, he1, hcov1, hl1, hr1⟩ := h1
  obtain ⟨hse2, he2, hcov2, hl2, hr2⟩ := h2
  constructor
  · rcases lt_trichotomy s1 s2 with hlt | heq | hgt
    · exfalso
      rcases hl2 with h0 | hb
      · omega
      · have := hcov1 (s2 - 1) (by omega) (by omega)
        rw [this] at hb
        cases hb
    · exact heq
    · exfalso
      rcases hl1 with h0 | hb
      · omega
      · have := hcov2 (s1 - 1) (by omega) (by omega)
        rw [this] at hb
        cases hb
  · rcases lt_trichotomy e1 e2 with hlt | heq | hgt
    · exfalso
      rcases hr1 with h0 | hb
      · omega
      · have := hcov2 (e1 + 1) (by omega) (by omega)
        rw [this] at hb
        cases hb
    · exact heq
    · exfalso
      rcases hr2 with h0 | hb
      · omega
      · have := hcov1 (e2 + 1) (by omega) (by omega)
        rw [this] at hb
        cases hb

theorem vadAux_mem (mask : List Bool) (sr : ℕ) (d : ℚ) :
    ∀ (n i s : ℕ), mask.length - i ≤ n →
    ((VadPreF mask i →
        ∀ p : ℕ × ℕ, p ∈ vadAux mask sr d i false s ↔ RunSel mask sr d i p) ∧
     (VadPreT mask i s →
        ∀ p : ℕ × ℕ, p ∈ vadAux mask sr d i true s ↔ RunSel mask sr d s p)) := by
  intro n
  induction n with
  | zero =>
      intro i s hn
      constructor
      · intro _ p
        rw [vadAux, dif_neg (by omega)]
        simp only [List.not_mem_nil, false_iff]
        rintro ⟨⟨hse, he, _⟩, hlo, _⟩
        omega
      · intro hpre p
        exact absurd hpre.2.1 (by omega)
  | succ n ih =>
      intro i s hn
      by_cases h : i < mask.length
      case neg =>
        constructor
        · intro _ p
          rw [vadAux, dif_neg h]
          simp only [List.not_mem_nil, false_iff]
          rintro ⟨⟨hse, he, _⟩, hlo, _⟩
          omega
        · intro hpre p
          exact absurd hpre.2.1 (by omega)
      case pos =>
        have hgd : mask.getD i false = mask[i] := by
          rw [List.getD_eq_getElem?_getD, List.getElem?_eq_getElem h]
          rfl
        constructor
        · intro hpre p
          rw [vadAux, dif_pos h]
          by_cases hmt : mask.getD i false = true
          · rw [if_pos hmt]
            have hisome : mask[i]? = some true := by
              rw [List.getElem?_eq_getElem h, ← hgd, hmt]
            have hpre2 : VadPreF mask (i + 1) := by
              right; right; left
              simpa using hisome
            rw [(ih (i + 1) s (by omega)).1 hpre2 p]
            unfold RunSel
            constructor
            · rintro ⟨hmfr, hlo, hd2⟩
              exact ⟨hmfr, by omega, hd2⟩
            · rintro ⟨hmfr, hlo, hd2⟩
              refine ⟨hmfr, ?_, hd2⟩
              have hne : p.1 ≠ i := by
                intro he2
                have hcv := hmfr.2.2.1 p.1 le_rfl hmfr.1
                rw [he2, hisome] at hcv
                cases hcv
              omega
          · rw [if_neg hmt]
            have hmf : mask[i] = false := by
              rw [← hgd]
              cases hb : mask.getD i false
              · rfl
              · exact absurd hb hmt
            have hif : mask[i]? = some false := by
              rw [List.getElem?_eq_getElem h, hmf]
            have hstart : i = 0 ∨ mask[i - 1]? = some true := by
              rcases hpre with hc | hc | hc | hc
              · omega
              · exact Or.inl hc
              · exact Or.inr hc
              · rw [hif] at hc; cases hc
            simp only [Bool.cond_false]
            by_cases hend : i = mask.length - 1 ∨
                (¬i = mask.length - 1 ∧ mask.getD (i + 1) false = true)
            · rw [if_pos hend]
              have hrb : i = mask.length - 1 ∨ mask[i + 1]? = some true := by
                rcases hend with hc | ⟨hne, hc⟩
                · exact Or.inl hc
                · right
                  have hi1 : i + 1 < mask.length := by omega
                  rw [List.getD_eq_getElem?_getD,
                    List.getElem?_eq_getElem hi1] at hc
                  rw [List.getElem?_eq_getElem hi1]
                  simpa using hc
              have hmfr : MaximalFalseRun mask i i :=
                ⟨le_rfl, h, fun j hj1 hj2 => by
                  have hji : j = i := by omega
                  rw [hji]; exact hif, hstart, hrb⟩
              have hpre2 : VadPreF mask (i + 1) := by
                rcases hend with hc | ⟨hne, hc⟩
                · left; omega
                · right; right; right
                  have hi1 : i + 1 < mask.length := by omega
                  rw [List.getD_eq_getElem?_getD,
                    List.getElem?_eq_getElem hi1] at hc
                  rw [List.getElem?_eq_getElem hi1]
                  simpa using hc
              have htail := (ih (i + 1) i (by omega)).1 hpre2
              constructor
              · intro hp
                rcases List.mem_append.mp hp with hem | htl
                · by_cases hdc : d ≤ ((i - i + 1 : ℕ) : ℚ) / (sr : ℚ)
                  · rw [if_pos hdc] at hem
                    have hpe : p = (i, i) := List.mem_singleton.mp hem
                    subst hpe
                    exact ⟨hmfr, le_rfl, by simpa using hdc⟩
                  · rw [if_neg hdc] at hem
                    cases hem
                · rcases (htail p).mp htl with ⟨hmfr2, hlo2, hd2⟩
                  exact ⟨hmfr2, by omega, hd2⟩
              · rintro ⟨hmfr2, hlo2, hd2⟩
                rcases Nat.lt_or_ge p.1 (i + 1) with hlt | hge2
                · have huni := maximalFalseRun_unique mask p.1 p.2 i i p.1
                    hmfr2 hmfr le_rfl hmfr2.1 hlo2 (by omega)
                  apply List.mem_append.mpr
                  left
                  have hdc : d ≤ ((i - i + 1 : ℕ) : ℚ) / (sr : ℚ) := by
                    rw [huni.1, huni.2] at hd2
                    exact hd2
                  rw [if_pos hdc]
                  exact List.mem_singleton.mpr (Prod.ext huni.1 huni.2)
                · exact List.mem_append.mpr
                    (Or.inr ((htail p).mpr ⟨hmfr2, hge2, hd2⟩))
            · rw [if_neg hend]
              push_neg at hend
              have hi1 : i + 1 < mask.length := by omega
              have hif1 : mask[i + 1]? = some false := by
                have hB := hend.2 hend.1
                rw [List.getD_eq_getElem?_getD,
                  List.getElem?_eq_getElem hi1] at hB
                rw [List.getElem?_eq_getElem hi1]
                cases hb : mask[i + 1]
                · rfl
                · rw [hb] at hB
                  simp at hB
              have hpre2 : VadPreT mask (i + 1) i :=
                ⟨by omega, hi1, fun j hj1 hj2 => by
                  have hji : j = i := by omega
                  rw [hji]; exact hif, hstart, hif1⟩
              exact (ih (i + 1) i (by omega)).2 hpre2 p
        · intro hpre p
          obtain ⟨hsi, hil, hcov, hbound, hif⟩ := hpre
          rw [vadAux, dif_pos h]
          have hmt : ¬mask.getD i false = true := by
            rw [hgd]
            intro hc
            rw [List.getElem?_eq_getElem h, hc] at hif
            cases hif
          rw [if_neg hmt]
          simp only [Bool.cond_true]
          by_cases hend : i = mask.length - 1 ∨
              (¬i = mask.length - 1 ∧ mask.getD (i + 1) false = true)
          · rw [if_pos hend]
            have hrb : i = mask.length - 1 ∨ mask[i + 1]? = some true := by
              rcases hend with hc | ⟨hne, hc⟩
              · exact Or.inl hc
              · right
                have hi1 : i + 1 < mask.length := by omega
                rw [List.getD_eq_getElem?_getD,
                  List.getElem?_eq_getElem hi1] at hc
                rw [List.getElem?_eq_getElem hi1]
                simpa using hc
            have hmfr : MaximalFalseRun mask s i :=
              ⟨by omega, h, fun j hj1 hj2 => by
                rcases Nat.lt_or_ge j i with hlt | hge2
                · exact hcov j hj1 hlt
                · have hji : j = i := by omega
                  rw [hji]; exact hif, hbound, hrb⟩
            have hpre2 : VadPreF mask (i + 1) := by
              rcases hend with hc | ⟨hne, hc⟩
              · left; omega
              · right; right; right
                have hi1 : i + 1 < mask.length := by omega
                rw [List.getD_eq_getElem?_getD,
                  List.getElem?_eq_getElem hi1] at hc
                rw [List.getElem?_eq_getElem hi1]
                simpa using hc
            have htail := (ih (i + 1) s (by omega)).1 hpre2
            constructor
            · intro hp
              rcases List.mem_append.mp hp with hem | htl
              · by_cases hdc : d ≤ ((i - s + 1 : ℕ) : ℚ) / (sr : ℚ)
                · rw [if_pos hdc] at hem
                  have hpe : p = (s, i) := List.mem_singleton.mp hem
                  subst hpe
                  exact ⟨hmfr, le_rfl, by simpa using hdc⟩
                · rw [if_neg hdc] at hem
                  cases hem
              · rcases (htail p).mp htl with ⟨hmfr2, hlo2, hd2⟩
                exact ⟨hmfr2, by omega, hd2⟩
            · rintro ⟨hmfr2, hlo2, hd2⟩
              rcases Nat.lt_or_ge p.1 (i + 1) with hlt | hge2
              · have huni := maximalFalseRun_unique mask p.1 p.2 s i p.1
                  hmfr2 hmfr le_rfl hmfr2.1 hlo2 (by omega)
                apply List.mem_append.mpr
                left
                have hdc : d ≤ ((i - s + 1 : ℕ) : ℚ) / (sr : ℚ) := by
                  rw [huni.1, huni.2] at hd2
                  exact hd2
                rw [if_pos hdc]
                exact List.mem_singleton.mpr (Prod.ext huni.1 huni.2)
              · exact List.mem_append.mpr
                  (Or.inr ((htail p).mpr ⟨hmfr2, hge2, hd2⟩))
          · rw [if_neg hend]
            push_neg at hend
            have hi1 : i + 1 < mask.length := by omega
            have hif1 : mask[i + 1]? = some false := by
              have hB := hend.2 hend.1
              rw [List.getD_eq_getElem?_getD,
                List.getElem?_eq_getElem hi1] at hB
              rw [List.getElem?_eq_getElem hi1]
              cases hb : mask[i + 1]
              · rfl
              · rw [hb] at hB
                simp at hB
            have hpre2 : VadPreT mask (i + 1) s :=
              ⟨by omega, hi1, fun j hj1 hj2 => by
                rcases Nat.lt_or_ge j i with hlt | hge2
                · exact hcov j hj1 hlt
                · have hji : j = i := by omega
                  rw [hji]; exact hif, hbound, hif1⟩
            exact (ih (i + 1) s (by omega)).2 hpre2 p

/-- C2: the long-silence suppressor returns a signal of the input's length
that is identical to the input wherever the mask is true, all-zero inside
every maximal false run whose duration `(e - s + 1) / sr` reaches the
threshold `d`, and identical to the input inside every shorter maximal false
run. -/
theorem suppress_long_silence_spec (signal : List ℚ) (mask : List Bool)
    (sr : ℕ) (d : ℚ) (hlen : signal.length = mask.length) (hsr : 0 < sr)
    (hd : 0 ≤ d) :
    (suppress_long_silence signal mask sr d).length = signal.length ∧
    (∀ i : ℕ, mask[i]? = some true →
        (suppress_long_silence signal mask sr d)[i]? = signal[i]?) ∧
    (∀ s e : ℕ, MaximalFalseRun mask s e →
        d ≤ ((e - s + 1 : ℕ) : ℚ) / (sr : ℚ) →
        ∀ j : ℕ, s ≤ j → j ≤ e →
        (suppress_long_silence signal mask sr d)[j]? = some 0) ∧
    (∀ s e : ℕ, MaximalFalseRun mask s e →
        ((e - s + 1 : ℕ) : ℚ) / (sr : ℚ) < d →
        ∀ j : ℕ, s ≤ j → j ≤ e →
        (suppress_long_silence signal mask sr d)[j]? = signal[j]?) := by
  have hchar : ∀ p : ℕ × ℕ,
      p ∈ vadAux mask sr d 0 false 0 ↔ RunSel mask sr d 0 p :=
    (vadAux_mem mask sr d mask.length 0 0 (by omega)).1 (Or.inr (Or.inl rfl))
  have hout : ∀ j, j < signal.length →
      (suppress_long_silence signal mask sr d)[j]? =
        some (if (vadAux mask sr d 0 false 0).any
            (fun p => decide (p.1 ≤ j ∧ j ≤ p.2)) then 0
          else signal.getD j 0) := by
    intro j hj
    unfold suppress_long_silence
    rw [List.getElem?_map, List.getElem?_range hj]
    rfl
  have hkeep : ∀ j, j < signal.length →
      ((vadAux mask sr d 0 false 0).any
        (fun p => decide (p.1 ≤ j ∧ j ≤ p.2)) = false) →
      (suppress_long_silence signal mask sr d)[j]? = signal[j]? := by
    intro j hj hcv
    rw [hout j hj, hcv]
    simp [List.getD_eq_getElem?_getD, List.getElem?_eq_getElem hj]
  have hzero : ∀ j, j < signal.length →
      ((vadAux mask sr d 0 false 0).any
        (fun p => decide (p.1 ≤ j ∧ j ≤ p.2)) = true) →
      (suppress_long_silence signal mask sr d)[j]? = some 0 := by
    intro j hj hcv
    rw [hout j hj, hcv]
    simp
  refine ⟨?_, ?_, ?_, ?_⟩
  · unfold suppress_long_silence
    rw [List.length_map, List.length_range]
  · intro i hmt
    have hi : i < mask.length := by
      rcases List.getElem?_eq_some_iff.mp hmt with ⟨hw, _⟩
      exact hw
    have hj : i < signal.length := by omega
    refine hkeep i hj ?_
    by_contra hc
    rw [Bool.not_eq_false] at hc
    rcases List.any_eq_true.mp hc with ⟨p, hp, hpd⟩
    obtain ⟨hp1, hp2⟩ := of_decide_eq_true hpd
    have hrs := (hchar p).mp hp
    have hcv := hrs.1.2.2.1 i hp1 hp2
    rw [hmt] at hcv
    cases hcv
  · intro s e hmfr hcond j hsj hje
    have hj : j < signal.length := by
      have := hmfr.2.1
      omega
    refine hzero j hj ?_
    exact List.any_eq_true.mpr ⟨(s, e),
      (hchar (s, e)).mpr ⟨hmfr, Nat.zero_le _, hcond⟩,
      decide_eq_true ⟨hsj, hje⟩⟩
  · intro s e hmfr hcond j hsj hje
    have hj : j < signal.length := by
      have := hmfr.2.1
      omega
    refine hkeep j hj ?_
    by_contra hc
    rw [Bool.not_eq_false] at hc
    rcases List.any_eq_true.mp hc with ⟨p, hp, hpd⟩
    obtain ⟨hp1, hp2⟩ := of_decide_eq_true hpd
    obtain ⟨hmfr2, _, hdp⟩ := (hchar p).mp hp
    have huni := maximalFalseRun_unique mask p.1 p.2 s e j hmfr2 hmfr
      hp1 hp2 hsj hje
    rw [huni.1, huni.2] at hdp
    exact absurd hcond (not_lt.mpr hdp)

theorem suppress_long_silence_spec_witness :
    (suppress_long_silence [1, 2, 3, 4] [true, false, false, true] 1 2)[1]?
      = some 0 := by
  have hmfr : MaximalFalseRun [true, false, false, true] 1 2 := by
    refine ⟨by omega, by norm_num, ?_, ?_, ?_⟩
    · intro j h1 h2
      interval_cases j <;> rfl
    · right; rfl
    · right; rfl
  exact (suppress_long_silence_spec [1, 2, 3, 4] [true, false, false, true]
      1 2 (by rfl) (by norm_num) (by norm_num)).2.2.1 1 2 hmfr
      (by norm_num) 1 le_rfl (by norm_num)

/-! ### Segment overlap/match classifier (`asr-subtitle-compare`) -/

theorem length_dropWhile_le (p : Char → Bool) (l : List Char) :
    (l.dropWhile p).length ≤ l.length := by
  induction l with
  | nil => simp [List.dropWhile]
  | cons x xs ih =>
      rw [List.dropWhile_cons]
      split
      · exact Nat.le_trans ih (by simp)
      · simp

/-- `\w` of `re.sub(r'[^\w\s]', '', text)` restricted to ASCII: letters,
digits and underscore (the claims' scenario texts are ASCII). -/
def isWordChar (c : Char) : Bool := c.isAlphanum || c == '_'

/-- ASCII whitespace, as matched by `\s`. -/
def isSpaceChar (c : Char) : Bool :=
  c == ' ' || c == '\t' || c == '\n' || c == '\r' || c == '\x0b' || c == '\x0c'

/-- `re.sub(r'\s+', ' ', text)`: collapse every whitespace run to a single
space (emitted at the run's last character). -/
def collapseSpaces : List Char → List Char
  | [] => []
  | c :: cs =>
    if isSpaceChar c then
      match cs with
      | [] => [' ']
      | d :: _ =>
        if isSpaceChar d then collapseSpaces cs
        else ' ' :: collapseSpaces cs
    else c :: collapseSpaces cs

/-- `str.strip()` restricted to whitespace. -/
def stripSpaces (l : List Char) : List Char :=
  ((l.dropWhile isSpaceChar).reverse.dropWhile isSpaceChar).reverse

/-- `normalize_text` (asr-subtitle-compare/utils.py, lines 51-56): lower-case,
drop punctuation (`[^\w\s]`), collapse whitespace, strip. -/
def normalize_text (t : List Char) : List Char :=
  stripSpaces (collapseSpaces
    ((t.map Char.toLower).filter (fun c => isWordChar c || isSpaceChar c)))

/-- `dict.get(j, 0)` over the assoc-list model of difflib's `j2len`. -/
def lookupD (l : List (ℕ × ℕ)) (k : ℕ) : ℕ :=
  ((l.find? (fun q => q.1 == k)).map (fun q => q.2)).getD 0

/-- One row `i` of the dynamic program inside difflib's
`find_longest_match`: for each `j` with `b[j] == a[i]` (in increasing order),
the run length `k = j2len.get(j-1, 0) + 1` is recorded, and the best block is
replaced on a strict improvement. -/
def flm_row (j2len : List (ℕ × ℕ)) (i : ℕ) (js : List ℕ)
    (best : ℕ × ℕ × ℕ) : List (ℕ × ℕ) × (ℕ × ℕ × ℕ) :=
  js.foldl (fun st j =>
    let k := (if j = 0 then 0 else lookupD j2len (j - 1)) + 1
    let newj2len := (j, k) :: st.1
    if k > st.2.2.2 then (newj2len, (i + 1 - k, j + 1 - k, k))
    else (newj2len, st.2))
    ([], best)

/-- The core loop of difflib `SequenceMatcher.find_longest_match` over
`a[alo:ahi]` and `b[blo:bhi]`, without junk (there is none for `isjunk=None`;
autojunk only affects strings of length ≥ 200, longer than the subtitle
texts compared here). -/
def flm_core (a b : List Char) (alo ahi blo bhi : ℕ) : ℕ × ℕ × ℕ :=
  ((List.range' alo (ahi - alo)).foldl (fun st i =>
      let js := (List.range bhi).filter
        (fun j => decide (blo ≤ j) && (b.getD j 'a' == a.getD i 'b'))
      flm_row st.1 i js st.2)
    ([], (alo, blo, 0))).2

/-- The backward extension loop of `find_longest_match` (with no junk both
junk-aware loops are identity and the plain extensions remain).  Each
iteration decrements `besti` and requires `alo < besti`, so a fuel of the
initial `besti` makes the loop run to completion. -/
def flm_extend_back (a b : List Char) (alo blo : ℕ) :
    ℕ → ℕ → ℕ → ℕ → ℕ × ℕ × ℕ
  | 0, besti, bestj, bestsize => (besti, bestj, bestsize)
  | fuel + 1, besti, bestj, bestsize =>
    if alo < besti ∧ blo < bestj ∧
        a.getD (besti - 1) 'a' == b.getD (bestj - 1) 'b' then
      flm_extend_back a b alo blo fuel (besti - 1) (bestj - 1) (bestsize + 1)
    else (besti, bestj, bestsize)

/-- The forward extension loop of `find_longest_match`: each iteration
increments `bestsize` and requires `besti + bestsize < ahi`, so a fuel of
`ahi` makes the loop run to completion. -/
def flm_extend_fwd (a b : List Char) (ahi bhi : ℕ) :
    ℕ → ℕ → ℕ → ℕ → ℕ × ℕ × ℕ
  | 0, besti, bestj, bestsize => (besti, bestj, bestsize)
  | fuel + 1, besti, bestj, bestsize =>
    if besti + bestsize < ahi ∧ bestj + bestsize < bhi ∧
        a.getD (besti + bestsize) 'a' == b.getD (bestj + bestsize) 'b' then
      flm_extend_fwd a b ahi bhi fuel besti bestj (bestsize + 1)
    else (besti, bestj, bestsize)

/-- difflib `find_longest_match` without junk: dynamic program plus the two
extension loops. -/
def find_longest_match (a b : List Char) (alo ahi blo bhi : ℕ) : ℕ × ℕ × ℕ :=
  let core := flm_core a b alo ahi blo bhi
  let back := flm_extend_back a b alo blo core.1 core.1 core.2.1 core.2.2
  flm_extend_fwd a b ahi bhi ahi back.1 back.2.1 back.2.2

/-- difflib `get_matching_blocks` as the standard divide-and-conquer around
each longest match; the fuel argument bounds the recursion depth (the sum of
the two lengths plus one always suffices, since each recursive call shrinks
the combined range). -/
def matching_blocks_aux (a b : List Char) :
    ℕ → ℕ → ℕ → ℕ → ℕ → List (ℕ × ℕ × ℕ)
  | 0, _, _, _, _ => []
  | fuel + 1, alo, ahi, blo, bhi =>
    let ijk := find_longest_match a b alo ahi blo bhi
    if ijk.2.2 = 0 then []
    else
      matching_blocks_aux a b fuel alo ijk.1 blo ijk.2.1 ++ [ijk] ++
        matching_blocks_aux a b fuel (ijk.1 + ijk.2.2) ahi (ijk.2.1 + ijk.2.2) bhi

/-- `SequenceMatcher(None, a, b).ratio()`: twice the total matched length
over the total length, `1.0` for two empty sequences. -/
def ratioVal (sa sb : List Char) : ℚ :=
  let blocks := matching_blocks_aux sa sb (sa.length + sb.length + 1)
    0 sa.length 0 sb.length
  let mtotal := (blocks.map (fun t => t.2.2)).sum
  if sa.length + sb.length = 0 then 1
  else 2 * (mtotal : ℚ) / ((sa.length + sb.length : ℕ) : ℚ)

/-- `SRTSegment` (asr-subtitle-compare/utils.py): one subtitle block. -/
structure SRTSegment where
  index : ℤ
  start_time : ℚ
  end_time : ℚ
  text : List Char
deriving DecidableEq, Repr

instance : Inhabited SRTSegment := ⟨⟨0, 0, 0, []⟩⟩

/-- `find_all_overlapping_segments` (detail_compare.py, lines 6-23): all
segments whose overlap ratio (overlap duration over the shorter duration)
reaches the threshold; zero-duration segments never match. -/
def find_all_overlapping_segments (seg : SRTSegment)
    (segments : List SRTSegment) (threshold : ℚ) : List SRTSegment :=
  segments.filter (fun other =>
    let overlap_start := max seg.start_time other.start_time
    let overlap_end := min seg.end_time other.end_time
    let overlap_duration := max 0 (overlap_end - overlap_start)
    let seg_duration := seg.end_time - seg.start_time
    let other_duration := other.end_time - other.start_time
    decide (seg_duration > 0) && decide (other_duration > 0) &&
      decide (overlap_duration / min seg_duration other_duration ≥ threshold))

/-- `find_text_based_match` (detail_compare.py, lines 25-39): best
text-similarity match at or above the threshold, `none` when no segment
qualifies. -/
def find_text_based_match (seg : SRTSegment) (segments : List SRTSegment)
    (threshold : ℚ) : Option SRTSegment × ℚ :=
  let text1_norm := normalize_text seg.text
  segments.foldl (fun st other =>
    let similarity := ratioVal text1_norm (normalize_text other.text)
    if similarity > st.2 ∧ similarity ≥ threshold then (some other, similarity)
    else st)
    (none, 0)

/-- The `patterns` dictionary of `detect_segment_patterns`. -/
structure Patterns where
  one_to_one : List (SRTSegment × SRTSegment × ℚ) := []
  merged : List (List SRTSegment × SRTSegment) := []
  split : List (SRTSegment × List SRTSegment) := []
  missing : List SRTSegment := []
  text_diff_only : List (SRTSegment × SRTSegment × ℚ) := []
  timeline_mismatch : List (SRTSegment × SRTSegment × ℚ × ℚ) := []
deriving DecidableEq, Repr

/-- One iteration of the forward pass of `detect_segment_patterns`
(detail_compare.py, lines 55-123) over a source-A segment: no overlap ⇒
text match (`timeline_mismatch`) or `missing`; one overlap ⇒
`text_diff_only`/`one_to_one` by similarity below/at `0.95`; several
overlaps ⇒ a near-identity candidate (`> 0.95`) is a disguised `one_to_one`,
otherwise a genuine `split`.  The `matched` list collects consumed source-B
indices. -/
def forwardStep (segments2 : List SRTSegment) (st : Patterns × List ℤ)
    (seg1 : SRTSegment) : Patterns × List ℤ :=
  let patterns := st.1
  let matched := st.2
  let overlapping := find_all_overlapping_segments seg1 segments2 (2 / 10)
  if overlapping.length = 0 then
    match find_text_based_match seg1 segments2 (85 / 100) with
    | (some text_match, similarity) =>
        ({ patterns with timeline_mismatch := patterns.timeline_mismatch ++
            [(seg1, text_match, similarity,
              |(seg1.start_time + seg1.end_time) / 2 -
                (text_match.start_time + text_match.end_time) / 2|)] },
          matched ++ [text_match.index])
    | (none, _) =>
        ({ patterns with missing := patterns.missing ++ [seg1] }, matched)
  else if overlapping.length = 1 then
    let seg2 := overlapping.headD default
    let matched2 := matched ++ [seg2.index]
    let similarity := ratioVal (normalize_text seg1.text)
      (normalize_text seg2.text)
    if similarity < 95 / 100 then
      ({ patterns with text_diff_only := patterns.text_diff_only ++
          [(seg1, seg2, similarity)] }, matched2)
    else
      ({ patterns with one_to_one := patterns.one_to_one ++
          [(seg1, seg2, similarity)] }, matched2)
  else
    match overlapping.find? (fun seg2 =>
        decide (ratioVal (normalize_text seg1.text) (normalize_text seg2.text)
          > 95 / 100)) with
    | some exact_match =>
        ({ patterns with one_to_one := patterns.one_to_one ++
            [(seg1, exact_match, 1)] }, matched ++ [exact_match.index])
    | none =>
        ({ patterns with split := patterns.split ++ [(seg1, overlapping)] },
          matched ++ overlapping.map (fun s => s.index))

/-- One iteration of the backward pass (detail_compare.py, lines 125-136):
an unconsumed source-B segment overlapped by more than one source-A segment
yields a `merged` record. -/
def backwardStep (segments1 : List SRTSegment) (matched : List ℤ)
    (patterns : Patterns) (seg2 : SRTSegment) : Patterns :=
  if seg2.index ∈ matched then patterns
  else
    let overlapping_seg1 := find_all_overlapping_segments seg2 segments1 (2 / 10)
    if overlapping_seg1.length > 1 then
      { patterns with merged := patterns.merged ++ [(overlapping_seg1, seg2)] }
    else patterns

/-- `detect_segment_patterns` (detail_compare.py, lines 41-138): forward pass
over source A, then backward merge detection over the unconsumed source-B
segments. -/
def detect_segment_patterns (segments1 segments2 : List SRTSegment) : Patterns :=
  let fwd := segments1.foldl (forwardStep segments2) (({} : Patterns), ([] : List ℤ))
  segments2.foldl (backwardStep segments1 fwd.2) fwd.1

/-- The source-A segments carried by the five forward-pass categories, with
multiplicity. -/
def forwardSeg1s (p : Patterns) : List SRTSegment :=
  p.one_to_one.map (fun t => t.1) ++ p.text_diff_only.map (fun t => t.1) ++
    p.split.map (fun t => t.1) ++ p.timeline_mismatch.map (fun t => t.1) ++
    p.missing

theorem forwardSeg1s_step (segments2 : List SRTSegment) (st : Patterns × List ℤ)
    (seg1 : SRTSegment) :
    (↑(forwardSeg1s (forwardStep segments2 st seg1).1) : Multiset SRTSegment)
      = ↑(forwardSeg1s st.1) + {seg1} := by
  unfold forwardStep
  dsimp only
  repeat' split
  all_goals
    simp only [forwardSeg1s, List.map_append, List.map_cons, List.map_nil,
      ← Multiset.coe_add, Multiset.coe_singleton]
  all_goals abel

theorem forwardSeg1s_fold (segments2 : List SRTSegment) (l : List SRTSegment) :
    ∀ st : Patterns × List ℤ,
    (↑(forwardSeg1s (l.foldl (forwardStep segments2) st).1) : Multiset SRTSegment)
      = ↑(forwardSeg1s st.1) + ↑l := by
  induction l with
  | nil => intro st; simp
  | cons x xs ih =>
      intro st
      rw [List.foldl_cons, ih (forwardStep segments2 st x),
        forwardSeg1s_step]
      rw [← Multiset.cons_coe, ← Multiset.singleton_add]
      abel

theorem forwardSeg1s_backward (segments1 : List SRTSegment) (matched : List ℤ)
    (l : List SRTSegment) : ∀ patterns : Patterns,
    forwardSeg1s (l.foldl (backwardStep segments1 matched) patterns)
      = forwardSeg1s patterns := by
  induction l with
  | nil => intro p; rfl
  | cons x xs ih =>
      intro p
      rw [List.foldl_cons, ih]
      unfold backwardStep
      dsimp only
      split
      · rfl
      · split
        · rfl
        · rfl

/-- C4: across the five forward-pass categories (`one_to_one`,
`text_diff_only`, `split`, `timeline_mismatch`, `missing`), the source-A
segments carried by the records of `detect_segment_patterns` form, with
multiplicity, exactly the input list of source-A segments: every A segment
lands in exactly one forward record, never zero and never more than one. -/
theorem detect_forward_partition (segments1 segments2 : List SRTSegment) :
    (↑(forwardSeg1s (detect_segment_patterns segments1 segments2)) :
        Multiset SRTSegment) = ↑segments1 := by
  unfold detect_segment_patterns
  rw [forwardSeg1s_backward, forwardSeg1s_fold]
  simp [forwardSeg1s]

/-- C1 counterexample: on the claimed scenario (reference
`[(0,1,"a"),(1,2,"b")]`, candidate `[(0,2,"a b")]`, thresholds 0.2 and
0.85/0.95) the classifier produces no `merged` record at all: each reference
segment overlaps the single candidate with ratio 1.0, so the forward pass
consumes the candidate (marking its index matched) and the backward pass
skips it. -/
theorem detect_merged_counterexample :
    (detect_segment_patterns [⟨1, 0, 1, ['a']⟩, ⟨2, 1, 2, ['b']⟩]
      [⟨1, 0, 2, ['a', ' ', 'b']⟩]).merged = [] := by
  with_unfolding_all decide

/-- C1 (amended): on reference `[(0,1,"a"),(1,2,"b")]` and candidate
`[(0,2,"a b")]` the classifier yields two `text_diff_only` records pairing
each reference segment with the candidate (similarity 0.5 each, below the
0.95 near-identity threshold), and no `merged` record: the forward pass
marks the candidate matched, so backward merge detection never fires.  A
`merged` record requires the candidate to stay unconsumed through the whole
forward pass. -/
theorem detect_merged_amended :
    detect_segment_patterns [⟨1, 0, 1, ['a']⟩, ⟨2, 1, 2, ['b']⟩]
      [⟨1, 0, 2, ['a', ' ', 'b']⟩]
      = { text_diff_only := [(⟨1, 0, 1, ['a']⟩, ⟨1, 0, 2, ['a', ' ', 'b']⟩, 1 / 2),
            (⟨2, 1, 2, ['b']⟩, ⟨1, 0, 2, ['a', ' ', 'b']⟩, 1 / 2)] } := by
  with_unfolding_all decide

/-- C8: on reference `[(0,2,"hello world")]` and candidate
`[(0,1,"hello"),(1,2,"world")]` with overlap threshold 0.2, both candidates
overlap (ratio 1.0 against the shorter duration), neither has text
similarity above 0.95 (both are 0.625), and the classifier emits exactly one
`split` record carrying the reference segment and both candidates as matched
segments. -/
theorem detect_split_scenario :
    detect_segment_patterns
      [⟨1, 0, 2, ['h','e','l','l','o',' ','w','o','r','l','d']⟩]
      [⟨1, 0, 1, ['h','e','l','l','o']⟩, ⟨2, 1, 2, ['w','o','r','l','d']⟩]
      = { split := [(⟨1, 0, 2, ['h','e','l','l','o',' ','w','o','r','l','d']⟩,
            [⟨1, 0, 1, ['h','e','l','l','o']⟩, ⟨2, 1, 2, ['w','o','r','l','d']⟩])] } := by
  with_unfolding_all decide
